import Mathlib

/-!
Verification development for the visual-complexity metric extractor
(`app/analyzer.py`).  The Python pipeline is shallowly embedded: images are
finite grids of 8-bit BGR pixels, floating-point arithmetic is idealised as
exact arithmetic over `ℚ` (for the operations the code performs exactly on
small integers and ratios) and `ℝ` (for the entropy / square-root statistics),
and `round(x, n)` is modelled as rounding to the nearest multiple of `10⁻ⁿ`.
-/

namespace ImageAnalyzer

/-- Rounding to `n` decimal places, the model of Python's `round(x, n)`. -/
def roundTo {α : Type} [LinearOrderedField α] [FloorRing α] (n : ℕ) (x : α) : α :=
  ((round (x * 10 ^ n) : ℤ) : α) / 10 ^ n

/-- Python's `int()` applied to a rational: truncation toward zero. -/
def pyInt (q : ℚ) : ℤ := if 0 ≤ q then ⌊q⌋ else -⌊-q⌋

/-- A pixel as decoded by `cv2.imread`: a `(blue, green, red)` triple. -/
abbrev Pixel := ℕ × ℕ × ℕ

/-- A decoded image: rows of BGR pixels (`cv2.imread` always yields 3-channel
BGR data on success). -/
abbrev Image := List (List Pixel)

/-- `height, width = img.shape[:2]` — the number of rows. -/
def imgHeight (img : Image) : ℕ := img.length

/-- `height, width = img.shape[:2]` — the length of a row. -/
def imgWidth (img : Image) : ℕ := (img.headD []).length

/-- `pixel_count = height * width`. -/
def pixelCount (img : Image) : ℕ := imgHeight img * imgWidth img

/-- One pixel of `cv2.cvtColor(img, cv2.COLOR_BGR2GRAY)`: the standard
luma-weighted conversion `0.299 R + 0.587 G + 0.114 B` in OpenCV's
fixed-point form (weights scaled by `2^14`, rounded addition). -/
def grayPix (p : Pixel) : ℕ :=
  (p.2.2 * 4899 + p.2.1 * 9617 + p.1 * 1868 + 8192) / 16384

/-- The grayscale image `gray = cv2.cvtColor(img, cv2.COLOR_BGR2GRAY)`. -/
def grayImg (img : Image) : List (List ℕ) :=
  img.map (fun row => row.map grayPix)

/-- The flattened grayscale pixel list (NumPy statistics over `gray` run over
all entries of the 2-D array). -/
def grayFlat (img : Image) : List ℕ := (grayImg img).flatten

/-- The blue channel `img[:, :, 0]`, flattened. -/
def channelB (img : Image) : List ℕ := (img.map (fun row => row.map (fun p => p.1))).flatten

/-- The green channel `img[:, :, 1]`, flattened. -/
def channelG (img : Image) : List ℕ := (img.map (fun row => row.map (fun p => p.2.1))).flatten

/-- The red channel `img[:, :, 2]`, flattened. -/
def channelR (img : Image) : List ℕ := (img.map (fun row => row.map (fun p => p.2.2))).flatten

/-- `np.median` of a list of 8-bit values: middle element of the sorted list,
or the mean of the two middle elements for even length. -/
def medianQ (xs : List ℕ) : ℚ :=
  let s := xs.mergeSort (fun a b => decide (a ≤ b))
  let n := s.length
  if n = 0 then 0
  else if n % 2 = 1 then (s.getD (n / 2) 0 : ℚ)
  else ((s.getD (n / 2 - 1) 0 : ℚ) + (s.getD (n / 2) 0 : ℚ)) / 2

/-- `np.var`: population variance of a list of pixel values. -/
def varQ (xs : List ℕ) : ℚ :=
  let q : List ℚ := xs.map (fun x : ℕ => (x : ℚ))
  let μ : ℚ := q.sum / q.length
  (q.map (fun x => (x - μ) ^ 2)).sum / q.length

/-- The 256-bin histogram `cv2.calcHist([gray], [0], None, [256], [0, 256])`:
the count of each intensity value `0 ≤ v < 256`. -/
def hist256 (xs : List ℕ) : List ℕ := (List.range 256).map (fun v => xs.count v)

/-- `skimage.measure.shannon_entropy`: `-Σ pₖ · log₂ pₖ` over the relative
frequencies `pₖ` of the distinct values occurring in the data. -/
noncomputable def shannonEntropy (xs : List ℕ) : ℝ :=
  -(xs.dedup.map (fun v =>
      ((xs.count v : ℝ) / (xs.length : ℝ)) *
        Real.logb 2 ((xs.count v : ℝ) / (xs.length : ℝ)))).sum

/-- `np.std` of the 256-bin histogram: square root of the population variance
of the bin counts. -/
noncomputable def histStd (xs : List ℕ) : ℝ := Real.sqrt ((varQ (hist256 xs) : ℝ))

/-- `MAX_ENTROPY = 8.0`, the theoretical maximum for 8-bit images. -/
def MAX_ENTROPY : ℝ := 8

/-- `MAX_VARIANCE = (255**2) / 4`. -/
def MAX_VARIANCE : ℚ := 255 ^ 2 / 4

/-- The adaptive Canny thresholds computed from the grayscale median `m`:
`lower = int(max(0, (1 - 0.33) * m))`, `upper = int(min(255, (1 + 0.33) * m))`,
then `lower = max(0, upper - 1)` whenever `lower >= upper`. -/
def cannyThresholds (m : ℚ) : ℤ × ℤ :=
  let sigma : ℚ := 33 / 100
  let lower := pyInt (max 0 ((1 - sigma) * m))
  let upper := pyInt (min 255 ((1 + sigma) * m))
  if upper ≤ lower then (max 0 (upper - 1), upper) else (lower, upper)

/-- `os.path.basename` for slash-separated paths. -/
def basename (p : String) : String := (p.splitOn "/").getLastD p

/-! ### The Canny edge detector `cv2.Canny(gray, lower, upper)`

OpenCV's Canny on an 8-bit grayscale image: Sobel 3×3 gradients with
replicated border, L1 gradient magnitude, non-maximum suppression with the
fixed-point sector constants OpenCV uses, double thresholding, and hysteresis
(weak candidates 8-connected to strong seeds become edges), the hysteresis
reached as a bounded fixpoint iteration. -/

/-- Clamp an index into `[0, n)` (OpenCV's replicated border). -/
def clampIdx (n : ℕ) (i : ℤ) : ℕ := (max 0 (min i ((n : ℤ) - 1))).toNat

/-- Border-replicated pixel access into a grayscale grid. -/
def pget (g : List (List ℕ)) (i j : ℤ) : ℕ :=
  (g.getD (clampIdx g.length i) []).getD (clampIdx ((g.headD []).length) j) 0

/-- The horizontal Sobel response at `(i, j)`. -/
def sobelX (g : List (List ℕ)) (i j : ℤ) : ℤ :=
  ((pget g (i - 1) (j + 1) : ℤ) + 2 * (pget g i (j + 1) : ℤ) + (pget g (i + 1) (j + 1) : ℤ))
    - ((pget g (i - 1) (j - 1) : ℤ) + 2 * (pget g i (j - 1) : ℤ) + (pget g (i + 1) (j - 1) : ℤ))

/-- The vertical Sobel response at `(i, j)`. -/
def sobelY (g : List (List ℕ)) (i j : ℤ) : ℤ :=
  ((pget g (i + 1) (j - 1) : ℤ) + 2 * (pget g (i + 1) j : ℤ) + (pget g (i + 1) (j + 1) : ℤ))
    - ((pget g (i - 1) (j - 1) : ℤ) + 2 * (pget g (i - 1) j : ℤ) + (pget g (i - 1) (j + 1) : ℤ))

/-- L1 gradient magnitude (OpenCV's default `L2gradient=False`). -/
def magL1 (g : List (List ℕ)) (i j : ℤ) : ℤ :=
  ((sobelX g i j).natAbs : ℤ) + ((sobelY g i j).natAbs : ℤ)

/-- Non-maximum suppression: the pixel survives when its magnitude dominates
its two neighbours along the quantised gradient direction (OpenCV's
fixed-point sector constants `tan 22.5° ≈ 13573 / 2^15`,
`tan 67.5° ≈ 79109 / 2^15`). -/
def nmsKeep (g : List (List ℕ)) (i j : ℤ) : Bool :=
  let dx := sobelX g i j
  let dy := sobelY g i j
  let m := magL1 g i j
  let x : ℤ := (dx.natAbs : ℤ)
  let y : ℤ := (dy.natAbs : ℤ)
  if y * 32768 < x * 13573 then
    decide (magL1 g i (j - 1) < m) && decide (magL1 g i (j + 1) ≤ m)
  else if x * 79109 < y * 32768 then
    decide (magL1 g (i - 1) j < m) && decide (magL1 g (i + 1) j ≤ m)
  else
    let s : ℤ := if dx * dy < 0 then -1 else 1
    decide (magL1 g (i - 1) (j - s) < m) && decide (magL1 g (i + 1) (j + s) ≤ m)

/-- A boolean mask over the image grid. -/
abbrev Grid := List (List Bool)

/-- Build an `h × w` mask from a predicate on coordinates. -/
def mkGrid (h w : ℕ) (f : ℕ → ℕ → Bool) : Grid :=
  (List.range h).map (fun i => (List.range w).map (fun j => f i j))

/-- Mask lookup; out-of-range coordinates read `false`. -/
def bget (e : Grid) (i j : ℤ) : Bool :=
  if 0 ≤ i ∧ 0 ≤ j then (e.getD i.toNat []).getD j.toNat false else false

/-- The eight neighbour offsets used by hysteresis. -/
def neighborOffsets : List (ℤ × ℤ) :=
  [(-1, -1), (-1, 0), (-1, 1), (0, -1), (0, 1), (1, -1), (1, 0), (1, 1)]

/-- Does any 8-neighbour of `(i, j)` hold an edge already? -/
def hasLitNeighbor (e : Grid) (i j : ℕ) : Bool :=
  neighborOffsets.any (fun d => bget e ((i : ℤ) + d.1) ((j : ℤ) + d.2))

/-- One round of hysteresis propagation: strong pixels are edges, weak
candidates adjacent to a current edge become edges. -/
def hystStep (cand strong : Grid) (e : Grid) : Grid :=
  mkGrid cand.length ((cand.headD []).length)
    (fun i j => bget strong (i : ℤ) (j : ℤ) ||
      (bget cand (i : ℤ) (j : ℤ) && hasLitNeighbor e i j))

/-- `cv2.Canny(g, low, high)` as a boolean edge mask. -/
def cannyEdges (g : List (List ℕ)) (low high : ℤ) : Grid :=
  let h := g.length
  let w := (g.headD []).length
  let cand := mkGrid h w (fun i j => nmsKeep g (i : ℤ) (j : ℤ) && decide (low < magL1 g (i : ℤ) (j : ℤ)))
  let strong := mkGrid h w (fun i j => nmsKeep g (i : ℤ) (j : ℤ) && decide (high < magL1 g (i : ℤ) (j : ℤ)))
  (hystStep cand strong)^[h * w] strong

/-- `np.sum(edges > 0)`: the number of pixels marked as edges. -/
def countTrue (e : Grid) : ℕ := (e.map (fun r => r.count true)).sum

/-! ### The metric record and the extraction pipeline -/

/-- The record returned by `analyze_visual_complexity` (field per dict key). -/
structure Metrics where
  filename : String
  image_size : String
  entropy : ℝ
  color_entropy : ℝ
  edge_count : ℕ
  edge_density : ℚ
  color_variance : ℚ
  histogram_std : ℝ
  entropy_normalized : ℝ
  color_entropy_normalized : ℝ
  edge_density_normalized : ℚ
  color_variance_normalized : ℚ

/-- `entropy = float(round(shannon_entropy(gray), 4))`. -/
noncomputable def entropyOf (img : Image) : ℝ := roundTo 4 (shannonEntropy (grayFlat img))

/-- The adaptive thresholds computed from `np.median(gray)`. -/
def thresholdsOf (img : Image) : ℤ × ℤ := cannyThresholds (medianQ (grayFlat img))

/-- `edges = cv2.Canny(gray, lower, upper)`. -/
def edgesOf (img : Image) : Grid :=
  cannyEdges (grayImg img) (thresholdsOf img).1 (thresholdsOf img).2

/-- `edge_count = np.sum(edges > 0)`. -/
def edgeCountOf (img : Image) : ℕ := countTrue (edgesOf img)

/-- `edge_density = float(round(edge_count / pixel_count, 6) if pixel_count > 0 else 0)`. -/
def edgeDensityOf (img : Image) : ℚ :=
  if 0 < pixelCount img then roundTo 6 ((edgeCountOf img : ℚ) / (pixelCount img : ℚ)) else 0

/-- `variance = float(round(np.var(gray), 2))`. -/
def varianceOf (img : Image) : ℚ := roundTo 2 (varQ (grayFlat img))

/-- `hist_std = float(round(np.std(hist), 2))`. -/
noncomputable def histStdOf (img : Image) : ℝ := roundTo 2 (histStd (grayFlat img))

/-- `color_entropy`: the image decoded by `cv2.imread` always has exactly 3
channels, so the `len(img.shape) == 3 and img.shape[2] == 3` test succeeds and
the mean of the per-channel Shannon entropies is taken, rounded to 4 decimals. -/
noncomputable def colorEntropyOf (img : Image) : ℝ :=
  roundTo 4 ((shannonEntropy (channelB img) + shannonEntropy (channelG img)
      + shannonEntropy (channelR img)) / 3)

/-- The record assembled at the end of `analyze_visual_complexity`. -/
noncomputable def computeMetrics (path : String) (img : Image) : Metrics :=
  { filename := basename path
    image_size := toString (imgWidth img) ++ "x" ++ toString (imgHeight img)
    entropy := entropyOf img
    color_entropy := colorEntropyOf img
    edge_count := edgeCountOf img
    edge_density := edgeDensityOf img
    color_variance := varianceOf img
    histogram_std := histStdOf img
    entropy_normalized := roundTo 4 (min (entropyOf img / MAX_ENTROPY) 1)
    color_entropy_normalized := roundTo 4 (min (colorEntropyOf img / MAX_ENTROPY) 1)
    edge_density_normalized := edgeDensityOf img
    color_variance_normalized := roundTo 4 (min (varianceOf img / MAX_VARIANCE) 1) }

/-- The possible outcomes of `cv2.imread` and the surrounding library calls:
a decoded image, a `None` return, or a raised exception (`cv2.error` or any
other `Exception`). -/
inductive DecodeResult where
  | ok (img : Image)
  | fail
  | raiseCv
  | raiseExc
deriving DecidableEq

/-- The outcome of the `try`-block body of `analyze_visual_complexity` before
the `except` clauses run. -/
inductive PyOutcome where
  | ret (m : Metrics)
  | retNone
  | raisedCv
  | raisedExc

/-- The `try`-block of `analyze_visual_complexity`: missing path → `None`,
`imread` returning `None` → `None`, zero pixel count → `None`, otherwise the
full record; library exceptions propagate out of the body. -/
noncomputable def analyzeBody (pathExists : Bool) (dec : DecodeResult) (path : String) :
    PyOutcome :=
  if pathExists = false then .retNone
  else
    match dec with
    | .ok img => if pixelCount img = 0 then .retNone else .ret (computeMetrics path img)
    | .fail => .retNone
    | .raiseCv => .raisedCv
    | .raiseExc => .raisedExc

/-- `analyze_visual_complexity`: the body wrapped in the two `except` clauses,
each of which returns `None`. -/
noncomputable def analyze_visual_complexity (pathExists : Bool) (dec : DecodeResult)
    (path : String) : Option Metrics :=
  match analyzeBody pathExists dec path with
  | .ret m => some m
  | .retNone => none
  | .raisedCv => none
  | .raisedExc => none

/-- A JSON-serialisable value of the metrics dict. -/
inductive MetricValue where
  | s (v : String)
  | n (v : ℕ)
  | q (v : ℚ)
  | r (v : ℝ)

/-- The dict literal returned by `analyze_visual_complexity` (and serialised
verbatim by `save_metrics_to_json`), keys in source order. -/
def metricsDict (m : Metrics) : List (String × MetricValue) :=
  [("filename", .s m.filename),
   ("image_size", .s m.image_size),
   ("entropy", .r m.entropy),
   ("color_entropy", .r m.color_entropy),
   ("edge_count", .n m.edge_count),
   ("edge_density", .q m.edge_density),
   ("color_variance", .q m.color_variance),
   ("histogram_std", .r m.histogram_std),
   ("entropy_normalized", .r m.entropy_normalized),
   ("color_entropy_normalized", .r m.color_entropy_normalized),
   ("edge_density_normalized", .q m.edge_density_normalized),
   ("color_variance_normalized", .q m.color_variance_normalized)]

/-- The JSON object written by `save_metrics_to_json`: `json.dump` serialises
the dict as-is, preserving keys and insertion order. -/
def save_metrics_to_json (m : Metrics) : List (String × MetricValue) := metricsDict m

/-- Modelled from the spec: the field names enumerated in spec section 3 for
the persisted sidecar record (this list follows the spec's words, for
comparison against the dict the code builds). -/
def specSection3Fields : List String :=
  ["filename", "image_size", "entropy", "color_entropy", "edge_count",
   "edge_density", "color_variance", "histogram_std",
   "entropy_normalized", "color_entropy_normalized", "color_variance_normalized"]

/-! ### Rounding lemmas -/

theorem round_nonneg {α : Type} [LinearOrderedField α] [FloorRing α] {x : α}
    (hx : 0 ≤ x) : 0 ≤ round x := by
  rw [round_eq]
  exact Int.floor_nonneg.mpr (by linarith)

theorem roundTo_nonneg {α : Type} [LinearOrderedField α] [FloorRing α] (n : ℕ) {x : α}
    (hx : 0 ≤ x) : 0 ≤ roundTo n x := by
  unfold roundTo
  have h1 : (0 : ℤ) ≤ round (x * 10 ^ n) :=
    round_nonneg (mul_nonneg hx (by positivity))
  have h2 : (0 : α) ≤ ((round (x * 10 ^ n) : ℤ) : α) := by exact_mod_cast h1
  positivity

theorem roundTo_le_one {α : Type} [LinearOrderedField α] [FloorRing α] (n : ℕ) {x : α}
    (hx : x ≤ 1) : roundTo n x ≤ 1 := by
  unfold roundTo
  have hpow : (0 : α) < 10 ^ n := by positivity
  rw [div_le_one hpow]
  have h1 : round (x * 10 ^ n) ≤ (10 ^ n : ℤ) := by
    rw [round_eq]
    have hle : x * 10 ^ n + 1 / 2 ≤ ((10 ^ n : ℤ) : α) + 1 / 2 := by
      push_cast
      nlinarith [hpow]
    calc ⌊x * 10 ^ n + 1 / 2⌋ ≤ ⌊((10 ^ n : ℤ) : α) + 1 / 2⌋ := Int.floor_mono hle
      _ = 10 ^ n + ⌊(1 / 2 : α)⌋ := Int.floor_int_add ..
      _ = 10 ^ n := by
          have : ⌊(1 / 2 : α)⌋ = 0 := by
            apply Int.floor_eq_zero_iff.mpr
            constructor <;> norm_num
          omega
  calc ((round (x * 10 ^ n) : ℤ) : α) ≤ ((10 ^ n : ℤ) : α) := by exact_mod_cast h1
    _ = 10 ^ n := by push_cast; ring

theorem roundTo_zero {α : Type} [LinearOrderedField α] [FloorRing α] (n : ℕ) :
    roundTo n (0 : α) = 0 := by
  unfold roundTo
  simp

/-- Rounding `min (x / M) 1` stays inside `[0, 1]` for nonnegative `x`. -/
theorem roundTo_min_unit {α : Type} [LinearOrderedField α] [FloorRing α] (n : ℕ) {x : α}
    (hx : 0 ≤ x) : 0 ≤ roundTo n (min x 1) ∧ roundTo n (min x 1) ≤ 1 :=
  ⟨roundTo_nonneg n (le_min hx zero_le_one), roundTo_le_one n (min_le_right _ _)⟩

/-! ### List sum helpers -/

theorem list_sum_nonpos {l : List ℝ} (h : ∀ x ∈ l, x ≤ 0) : l.sum ≤ 0 := by
  induction l with
  | nil => simp
  | cons a t ih =>
    have ha := h a (List.mem_cons_self a t)
    have ht := ih (fun x hx => h x (List.mem_cons_of_mem a hx))
    simp only [List.sum_cons]
    linarith

/-! ### Entropy lemmas -/

theorem shannonEntropy_nonneg (xs : List ℕ) : 0 ≤ shannonEntropy xs := by
  unfold shannonEntropy
  rw [neg_nonneg]
  apply list_sum_nonpos
  intro t ht
  rw [List.mem_map] at ht
  obtain ⟨v, hv, rfl⟩ := ht
  have hmem : v ∈ xs := List.mem_dedup.mp hv
  have hc : 0 < xs.count v := List.count_pos_iff.mpr hmem
  have hl : xs.count v ≤ xs.length := List.count_le_length v xs
  have hlen : 0 < xs.length := List.length_pos.mpr (List.ne_nil_of_mem hmem)
  set p : ℝ := (xs.count v : ℝ) / (xs.length : ℝ) with hp
  have hp0 : 0 < p := by
    apply div_pos <;> exact_mod_cast (by assumption)
  have hp1 : p ≤ 1 := by
    rw [hp, div_le_one (by exact_mod_cast hlen)]
    exact_mod_cast hl
  have hlog : Real.logb 2 p ≤ 0 := Real.logb_nonpos one_lt_two hp0.le hp1
  exact mul_nonpos_of_nonneg_of_nonpos hp0.le hlog

theorem dedup_replicate {v : ℕ} : ∀ {n : ℕ}, 0 < n → (List.replicate n v).dedup = [v] := by
  intro n
  induction n with
  | zero => intro h; omega
  | succ k ih =>
    intro _
    rcases Nat.eq_zero_or_pos k with hk | hk
    · subst hk; simp
    · rw [List.replicate_succ, List.dedup_cons_of_mem (by simp [List.mem_replicate]; omega)]
      exact ih hk

theorem shannonEntropy_replicate {n v : ℕ} (hn : 0 < n) :
    shannonEntropy (List.replicate n v) = 0 := by
  unfold shannonEntropy
  rw [dedup_replicate hn]
  have hcnt : (List.replicate n v).count v = n := List.count_replicate_self v n
  have hlen : (List.replicate n v).length = n := List.length_replicate n v
  have hne : (n : ℝ) ≠ 0 := by exact_mod_cast hn.ne'
  simp [hcnt, hlen, div_self hne]

/-! ### Variance and median lemmas -/

theorem list_sum_nonneg_q {l : List ℚ} (h : ∀ x ∈ l, 0 ≤ x) : 0 ≤ l.sum := by
  induction l with
  | nil => simp
  | cons a t ih =>
    have ha := h a (List.mem_cons_self a t)
    have ht := ih (fun x hx => h x (List.mem_cons_of_mem a hx))
    simp only [List.sum_cons]
    linarith

theorem varQ_nonneg (xs : List ℕ) : 0 ≤ varQ xs := by
  unfold varQ
  apply div_nonneg
  · apply list_sum_nonneg_q
    intro x hx
    rw [List.mem_map] at hx
    obtain ⟨y, _, rfl⟩ := hx
    positivity
  · positivity

theorem varQ_replicate {n : ℕ} {c : ℕ} (hn : 0 < n) :
    varQ (List.replicate n c) = 0 := by
  have hne : (n : ℚ) ≠ 0 := by exact_mod_cast hn.ne'
  simp [varQ, List.sum_replicate, nsmul_eq_mul, mul_div_cancel_left₀, hne]

theorem getD_replicate {α : Type} (n i : ℕ) (c d : α) (h : i < n) :
    (List.replicate n c).getD i d = c := by
  rw [List.getD_eq_getElem _ _ (by simpa using h)]
  exact List.getElem_replicate ..

theorem mergeSort_replicate {n c : ℕ} :
    (List.replicate n c).mergeSort (fun a b => decide (a ≤ b)) = List.replicate n c := by
  have hperm : ((List.replicate n c).mergeSort (fun a b => decide (a ≤ b))).Perm
      (List.replicate n c) := List.mergeSort_perm ..
  exact (List.perm_replicate.mp hperm)

theorem medianQ_replicate {n c : ℕ} (hn : 0 < n) :
    medianQ (List.replicate n c) = (c : ℚ) := by
  unfold medianQ
  rw [mergeSort_replicate]
  have hlen : (List.replicate n c).length = n := List.length_replicate ..
  simp only [hlen]
  have hne : n ≠ 0 := hn.ne'
  rw [if_neg hne]
  rcases Nat.even_or_odd n with he | ho
  · have hmod : ¬ n % 2 = 1 := by
      rcases he with ⟨k, hk⟩
      omega
    rw [if_neg hmod]
    rw [getD_replicate n (n / 2 - 1) c 0 (by omega), getD_replicate n (n / 2) c 0 (by omega)]
    ring
  · have hmod : n % 2 = 1 := Nat.odd_iff.mp ho
    rw [if_pos hmod, getD_replicate n (n / 2) c 0 (by omega)]

/-! ### Grid shape lemmas -/

/-- A mask with exactly `h` rows of width `w`. -/
def RectGrid (h w : ℕ) (e : Grid) : Prop := e.length = h ∧ ∀ r ∈ e, r.length = w

theorem mkGrid_length (h w : ℕ) (f : ℕ → ℕ → Bool) : (mkGrid h w f).length = h := by
  simp [mkGrid]

theorem rectGrid_mkGrid (h w : ℕ) (f : ℕ → ℕ → Bool) : RectGrid h w (mkGrid h w f) := by
  refine ⟨mkGrid_length h w f, ?_⟩
  intro r hr
  simp only [mkGrid, List.mem_map] at hr
  obtain ⟨i, _, rfl⟩ := hr
  simp

theorem rectGrid_headD_length {h w : ℕ} {e : Grid} (he : RectGrid h w e) (hh : 0 < h) :
    (e.headD []).length = w := by
  obtain ⟨hlen, hall⟩ := he
  cases e with
  | nil => simp at hlen; omega
  | cons r t => simpa using hall r (List.mem_cons_self r t)

theorem rectGrid_hystStep {h w : ℕ} {cand strong e : Grid} (hc : RectGrid h w cand) :
    RectGrid h w (hystStep cand strong e) := by
  rcases Nat.eq_zero_or_pos h with hh | hh
  · subst hh
    have hnil : cand = [] := List.length_eq_zero.mp hc.1
    subst hnil
    exact ⟨by simp [hystStep, mkGrid], by intro r hr; simp [hystStep, mkGrid] at hr⟩
  · have h1 : cand.length = h := hc.1
    have h2 : (cand.headD []).length = w := rectGrid_headD_length hc hh
    rw [hystStep, h1, h2]
    exact rectGrid_mkGrid h w _

theorem rectGrid_iterate {h w : ℕ} {cand strong s : Grid} (hc : RectGrid h w cand)
    (hs : RectGrid h w s) (n : ℕ) :
    RectGrid h w ((hystStep cand strong)^[n] s) := by
  induction n with
  | zero => simpa using hs
  | succ k ih =>
    rw [Function.iterate_succ_apply']
    exact rectGrid_hystStep hc

theorem countTrue_le_of_rect {h w : ℕ} {e : Grid} (he : RectGrid h w e) :
    countTrue e ≤ h * w := by
  unfold countTrue
  have hbound : ∀ x ∈ e.map (fun r => r.count true), x ≤ w := by
    intro x hx
    rw [List.mem_map] at hx
    obtain ⟨r, hr, rfl⟩ := hx
    calc r.count true ≤ r.length := List.count_le_length true r
      _ = w := he.2 r hr
  calc (e.map (fun r => r.count true)).sum
      ≤ (e.map (fun r => r.count true)).length • w := List.sum_le_card_nsmul _ w hbound
    _ = h * w := by rw [List.length_map, he.1, smul_eq_mul]

theorem countTrue_cannyEdges_le (g : List (List ℕ)) (low high : ℤ) :
    countTrue (cannyEdges g low high) ≤ g.length * (g.headD []).length :=
  countTrue_le_of_rect
    (rectGrid_iterate (rectGrid_mkGrid ..) (rectGrid_mkGrid ..) _)

theorem grayImg_length (img : Image) : (grayImg img).length = img.length :=
  List.length_map ..

theorem grayImg_headD_length (img : Image) :
    ((grayImg img).headD []).length = imgWidth img := by
  cases img with
  | nil => rfl
  | cons r t => simp [grayImg, imgWidth]

theorem edgeCountOf_le (img : Image) : edgeCountOf img ≤ pixelCount img := by
  have h := countTrue_cannyEdges_le (grayImg img) (thresholdsOf img).1 (thresholdsOf img).2
  rw [grayImg_length, grayImg_headD_length] at h
  exact h

theorem edgeDensityOf_mem_unit (img : Image) :
    0 ≤ edgeDensityOf img ∧ edgeDensityOf img ≤ 1 := by
  unfold edgeDensityOf
  split
  · next hpc =>
    have hle : (edgeCountOf img : ℚ) / (pixelCount img : ℚ) ≤ 1 := by
      rw [div_le_one (by exact_mod_cast hpc)]
      exact_mod_cast edgeCountOf_le img
    have hge : (0 : ℚ) ≤ (edgeCountOf img : ℚ) / (pixelCount img : ℚ) := by positivity
    exact ⟨roundTo_nonneg 6 hge, roundTo_le_one 6 hle⟩
  · norm_num

/-! ### Threshold lemmas -/

theorem pyInt_nonneg {q : ℚ} (h : 0 ≤ q) : 0 ≤ pyInt q := by
  unfold pyInt
  rw [if_pos h]
  exact Int.floor_nonneg.mpr h

theorem cannyThresholds_nonneg {m : ℚ} (hm : 0 ≤ m) :
    0 ≤ (cannyThresholds m).1 ∧ 0 ≤ (cannyThresholds m).2 := by
  have hlow : 0 ≤ pyInt (max 0 ((1 - 33 / 100) * m)) := pyInt_nonneg (le_max_left 0 _)
  have hup : 0 ≤ pyInt (min 255 ((1 + 33 / 100) * m)) := by
    apply pyInt_nonneg
    apply le_min (by norm_num)
    positivity
  simp only [cannyThresholds]
  split
  · exact ⟨le_max_left 0 _, hup⟩
  · exact ⟨hlow, hup⟩

/-! ### Uniform images: Sobel responses vanish, Canny finds no edges -/

theorem clampIdx_lt {n : ℕ} (hn : 0 < n) (i : ℤ) : clampIdx n i < n := by
  unfold clampIdx
  omega

theorem headD_rep {α : Type} {h : ℕ} (r : α) (hh : 0 < h) :
    (List.replicate h r).headD r = r := by
  cases h with
  | zero => omega
  | succ k => simp [List.replicate_succ]

theorem pget_replicate {h w c : ℕ} (hh : 0 < h) (hw : 0 < w) (i j : ℤ) :
    pget (List.replicate h (List.replicate w c)) i j = c := by
  unfold pget
  have hl : (List.replicate h (List.replicate w c)).length = h := List.length_replicate ..
  have hhead : (List.replicate h (List.replicate w c)).headD [] = List.replicate w c := by
    cases h with
    | zero => omega
    | succ k => simp [List.replicate_succ]
  simp only [hl, hhead, List.length_replicate]
  rw [getD_replicate h (clampIdx h i) (List.replicate w c) [] (clampIdx_lt hh i)]
  rw [getD_replicate w (clampIdx w j) c 0 (clampIdx_lt hw j)]

theorem sobelX_replicate {h w c : ℕ} (hh : 0 < h) (hw : 0 < w) (i j : ℤ) :
    sobelX (List.replicate h (List.replicate w c)) i j = 0 := by
  unfold sobelX
  simp only [pget_replicate hh hw]
  ring

theorem sobelY_replicate {h w c : ℕ} (hh : 0 < h) (hw : 0 < w) (i j : ℤ) :
    sobelY (List.replicate h (List.replicate w c)) i j = 0 := by
  unfold sobelY
  simp only [pget_replicate hh hw]
  ring

theorem magL1_replicate {h w c : ℕ} (hh : 0 < h) (hw : 0 < w) (i j : ℤ) :
    magL1 (List.replicate h (List.replicate w c)) i j = 0 := by
  unfold magL1
  rw [sobelX_replicate hh hw, sobelY_replicate hh hw]
  rfl

theorem mkGrid_congr (h w : ℕ) (f f₂ : ℕ → ℕ → Bool) (hf : ∀ i j, f i j = f₂ i j) :
    mkGrid h w f = mkGrid h w f₂ := by
  have hfe : f = f₂ := funext fun i => funext fun j => hf i j
  rw [hfe]

theorem mkGrid_rep_false (h w : ℕ) :
    mkGrid h w (fun _ _ => false) = List.replicate h (List.replicate w false) := by
  simp [mkGrid, List.map_const', List.length_range]

theorem getD_all {α : Type} (l : List α) (d x : α) (i : ℕ)
    (hall : ∀ a ∈ l, a = x) (hd : d = x) : l.getD i d = x := by
  rcases Nat.lt_or_ge i l.length with hlt | hge
  · rw [List.getD_eq_getElem l d hlt]
    exact hall _ (List.getElem_mem hlt)
  · rw [List.getD_eq_default l d hge]
    exact hd

theorem bget_rep_false (h w : ℕ) (i j : ℤ) :
    bget (List.replicate h (List.replicate w false)) i j = false := by
  unfold bget
  split
  · rcases Nat.lt_or_ge i.toNat h with hlt | hge
    · rw [getD_replicate h i.toNat (List.replicate w false) [] hlt]
      exact getD_all _ _ _ _ (fun b hb => List.eq_of_mem_replicate hb) rfl
    · have hnil : (List.replicate h (List.replicate w false)).getD i.toNat [] = [] :=
        List.getD_eq_default _ _ (by simpa using hge)
      rw [hnil]
      rfl
  · rfl

theorem hystStep_rep_false (h w : ℕ) :
    hystStep (List.replicate h (List.replicate w false))
      (List.replicate h (List.replicate w false))
      (List.replicate h (List.replicate w false))
      = List.replicate h (List.replicate w false) := by
  cases h with
  | zero => rfl
  | succ k =>
    unfold hystStep
    have h1 : (List.replicate (k + 1) (List.replicate w false)).length = k + 1 :=
      List.length_replicate ..
    have h2 : ((List.replicate (k + 1) (List.replicate w false)).headD []).length = w := by
      simp [List.replicate_succ]
    rw [h1, h2]
    calc mkGrid (k + 1) w _
        = mkGrid (k + 1) w (fun _ _ => false) := by
          apply mkGrid_congr
          intro i j
          rw [bget_rep_false]
          rfl
      _ = List.replicate (k + 1) (List.replicate w false) := mkGrid_rep_false ..

theorem countTrue_rep_false (h w : ℕ) :
    countTrue (List.replicate h (List.replicate w false)) = 0 := by
  unfold countTrue
  rw [List.map_replicate]
  simp [List.count_replicate, List.sum_replicate]

theorem countTrue_cannyEdges_replicate {h w c : ℕ} {low high : ℤ}
    (hh : 0 < h) (hw : 0 < w) (hl : 0 ≤ low) (hhi : 0 ≤ high) :
    countTrue (cannyEdges (List.replicate h (List.replicate w c)) low high) = 0 := by
  simp only [cannyEdges]
  have hlen : (List.replicate h (List.replicate w c)).length = h := List.length_replicate ..
  have hhead : ((List.replicate h (List.replicate w c)).headD []).length = w := by
    cases h with
    | zero => omega
    | succ k => simp [List.replicate_succ]
  rw [hlen, hhead]
  have hcand : mkGrid h w (fun i j =>
      nmsKeep (List.replicate h (List.replicate w c)) (i : ℤ) (j : ℤ) &&
        decide (low < magL1 (List.replicate h (List.replicate w c)) (i : ℤ) (j : ℤ)))
      = List.replicate h (List.replicate w false) := by
    rw [mkGrid_congr h w _ (fun _ _ => false) ?_, mkGrid_rep_false]
    intro i j
    rw [magL1_replicate hh hw]
    have : ¬ low < 0 := not_lt.mpr hl
    simp [this]
  have hstrong : mkGrid h w (fun i j =>
      nmsKeep (List.replicate h (List.replicate w c)) (i : ℤ) (j : ℤ) &&
        decide (high < magL1 (List.replicate h (List.replicate w c)) (i : ℤ) (j : ℤ)))
      = List.replicate h (List.replicate w false) := by
    rw [mkGrid_congr h w _ (fun _ _ => false) ?_, mkGrid_rep_false]
    intro i j
    rw [magL1_replicate hh hw]
    have : ¬ high < 0 := not_lt.mpr hhi
    simp [this]
  rw [hcand, hstrong]
  rw [Function.iterate_fixed (hystStep_rep_false h w)]
  exact countTrue_rep_false h w

/-! ### Uniform image statistics -/

theorem flatten_replicate {α : Type} (h w : ℕ) (c : α) :
    (List.replicate h (List.replicate w c)).flatten = List.replicate (h * w) c := by
  induction h with
  | zero => simp
  | succ k ih =>
    rw [List.replicate_succ, List.flatten_cons, ih, ← List.replicate_add]
    congr 1
    ring

theorem grayFlat_replicate (h w : ℕ) (p : Pixel) :
    grayFlat (List.replicate h (List.replicate w p)) =
      List.replicate (h * w) (grayPix p) := by
  unfold grayFlat grayImg
  rw [List.map_replicate, List.map_replicate, flatten_replicate]

/-! ### Nonnegativity of the raw statistics -/

theorem entropyOf_nonneg (img : Image) : 0 ≤ entropyOf img :=
  roundTo_nonneg 4 (shannonEntropy_nonneg _)

theorem colorEntropyOf_nonneg (img : Image) : 0 ≤ colorEntropyOf img := by
  apply roundTo_nonneg 4
  have h1 := shannonEntropy_nonneg (channelB img)
  have h2 := shannonEntropy_nonneg (channelG img)
  have h3 := shannonEntropy_nonneg (channelR img)
  apply div_nonneg (by linarith) (by norm_num)

theorem varianceOf_nonneg (img : Image) : 0 ≤ varianceOf img :=
  roundTo_nonneg 2 (varQ_nonneg _)

/-! ### The claims -/

/-- C1: for every decoded image, every `*_normalized` field of the record
returned by `analyze_visual_complexity` (`entropy_normalized`,
`color_entropy_normalized`, `color_variance_normalized`, and the additionally
emitted `edge_density_normalized`) lies in the closed interval `[0, 1]`. -/
theorem normalized_fields_in_unit_interval (path : String) (img : Image) :
    (0 ≤ (computeMetrics path img).entropy_normalized ∧
      (computeMetrics path img).entropy_normalized ≤ 1) ∧
    (0 ≤ (computeMetrics path img).color_entropy_normalized ∧
      (computeMetrics path img).color_entropy_normalized ≤ 1) ∧
    (0 ≤ (computeMetrics path img).color_variance_normalized ∧
      (computeMetrics path img).color_variance_normalized ≤ 1) ∧
    (0 ≤ (computeMetrics path img).edge_density_normalized ∧
      (computeMetrics path img).edge_density_normalized ≤ 1) := by
  simp only [computeMetrics]
  refine ⟨?_, ?_, ?_, ?_⟩
  · exact roundTo_min_unit 4
      (div_nonneg (entropyOf_nonneg img) (by norm_num [MAX_ENTROPY]))
  · exact roundTo_min_unit 4
      (div_nonneg (colorEntropyOf_nonneg img) (by norm_num [MAX_ENTROPY]))
  · exact roundTo_min_unit 4
      (div_nonneg (varianceOf_nonneg img) (by norm_num [MAX_VARIANCE]))
  · exact edgeDensityOf_mem_unit img

/-- C10: `edge_density_normalized` is literally the same value as
`edge_density` (the code stores the identical rounded quotient under both
keys, not an independently rescaled value), `edge_count` never exceeds
`pixel_count`, and so the field lies in `[0, 1]`. -/
theorem edge_density_normalized_eq_edge_density (path : String) (img : Image) :
    (computeMetrics path img).edge_density_normalized
      = (computeMetrics path img).edge_density ∧
    (computeMetrics path img).edge_count ≤ pixelCount img ∧
    0 ≤ (computeMetrics path img).edge_density_normalized ∧
    (computeMetrics path img).edge_density_normalized ≤ 1 := by
  refine ⟨rfl, edgeCountOf_le img, ?_, ?_⟩
  · exact (edgeDensityOf_mem_unit img).1
  · exact (edgeDensityOf_mem_unit img).2

/-- C4: for every image with a positive pixel count, the `edge_density`
field equals `round(edge_count / pixel_count, 6)` computed from the record's
own `edge_count`, with `pixel_count = width * height` as the dimensions
encoded in `image_size`. -/
theorem edge_density_eq_round_ratio (path : String) (img : Image)
    (hpc : 0 < pixelCount img) :
    (computeMetrics path img).edge_density
      = roundTo 6 (((computeMetrics path img).edge_count : ℚ) / (pixelCount img : ℚ)) ∧
    (computeMetrics path img).image_size
      = toString (imgWidth img) ++ "x" ++ toString (imgHeight img) := by
  constructor
  · show edgeDensityOf img = roundTo 6 ((edgeCountOf img : ℚ) / (pixelCount img : ℚ))
    unfold edgeDensityOf
    rw [if_pos hpc]
  · rfl

/-- Witness for C4 at the concrete 1×1 black image. -/
theorem edge_density_eq_round_ratio_witness :
    0 < pixelCount [[((0, 0, 0) : Pixel)]] ∧
    ((computeMetrics "img.png" [[((0, 0, 0) : Pixel)]]).edge_density
      = roundTo 6 (((computeMetrics "img.png" [[((0, 0, 0) : Pixel)]]).edge_count : ℚ)
          / (pixelCount [[((0, 0, 0) : Pixel)]] : ℚ)) ∧
    (computeMetrics "img.png" [[((0, 0, 0) : Pixel)]]).image_size
      = toString (imgWidth [[((0, 0, 0) : Pixel)]]) ++ "x"
          ++ toString (imgHeight [[((0, 0, 0) : Pixel)]])) :=
  ⟨by decide, edge_density_eq_round_ratio "img.png" [[((0, 0, 0) : Pixel)]] (by decide)⟩

/-- C6: `color_entropy` equals the mean of the three per-channel Shannon
entropies rounded to 4 decimals (`cv2.imread` always decodes to exactly 3
channels, so the 3-channel branch is the one taken), and
`color_entropy_normalized = round(min(color_entropy / 8, 1), 4)`. -/
theorem color_entropy_formula (path : String) (img : Image) :
    (computeMetrics path img).color_entropy
      = roundTo 4 ((shannonEntropy (channelB img) + shannonEntropy (channelG img)
          + shannonEntropy (channelR img)) / 3) ∧
    (computeMetrics path img).color_entropy_normalized
      = roundTo 4 (min ((computeMetrics path img).color_entropy / MAX_ENTROPY) 1) :=
  ⟨rfl, rfl⟩

/-- C2 counterexample: the dict returned by `analyze_visual_complexity` (and
serialised by `save_metrics_to_json`) contains the key
`edge_density_normalized`, which is not among the fields enumerated in spec
section 3 — the record does not consist of exactly the §3 fields. -/
theorem metricsDict_has_extra_field :
    "edge_density_normalized"
        ∈ (metricsDict (computeMetrics "img.png" [[((0, 0, 0) : Pixel)]])).map Prod.fst ∧
    "edge_density_normalized" ∉ specSection3Fields := by
  constructor
  · have h : (metricsDict (computeMetrics "img.png" [[((0, 0, 0) : Pixel)]])).map Prod.fst
        = ["filename", "image_size", "entropy", "color_entropy", "edge_count",
           "edge_density", "color_variance", "histogram_std", "entropy_normalized",
           "color_entropy_normalized", "edge_density_normalized",
           "color_variance_normalized"] := rfl
    rw [h]
    decide
  · decide

/-- C2 amended: the record returned by `analyze_visual_complexity` (and the
sidecar JSON object) holds exactly the eleven fields of spec section 3 plus
one additional field `edge_density_normalized`, in source order — in
particular no §3 field is missing. -/
theorem metricsDict_fields_exact (path : String) (img : Image) :
    (metricsDict (computeMetrics path img)).map Prod.fst
      = ["filename", "image_size", "entropy", "color_entropy", "edge_count",
         "edge_density", "color_variance", "histogram_std", "entropy_normalized",
         "color_entropy_normalized", "edge_density_normalized",
         "color_variance_normalized"] := rfl

/-- C3: the adaptive-threshold computation is NOT always non-degenerate: on
the uniform black 3×3 image the grayscale median is 0, both thresholds
evaluate to 0, and the `lower = max(0, upper - 1)` adjustment still leaves
`lower == upper`, contradicting `lower < upper`. -/
theorem thresholds_degenerate_on_black :
    thresholdsOf (List.replicate 3 (List.replicate 3 ((0, 0, 0) : Pixel))) = (0, 0) ∧
    ¬ (thresholdsOf (List.replicate 3 (List.replicate 3 ((0, 0, 0) : Pixel)))).1
        < (thresholdsOf (List.replicate 3 (List.replicate 3 ((0, 0, 0) : Pixel)))).2 := by
  have hmed : medianQ (grayFlat (List.replicate 3 (List.replicate 3 ((0, 0, 0) : Pixel))))
      = 0 := by
    rw [grayFlat_replicate, medianQ_replicate (by norm_num)]
    norm_num [grayPix]
  have hpy0 : pyInt 0 = 0 := by
    unfold pyInt
    rw [if_pos le_rfl, Int.floor_zero]
  have hmax : max (0 : ℚ) 0 = 0 := max_self 0
  have hmin : min (255 : ℚ) 0 = 0 := min_eq_right (by norm_num)
  have hval : cannyThresholds 0 = (0, 0) := by
    simp only [cannyThresholds, mul_zero, hmax, hmin, hpy0]
    decide
  have hth : thresholdsOf (List.replicate 3 (List.replicate 3 ((0, 0, 0) : Pixel)))
      = (0, 0) := by
    unfold thresholdsOf
    rw [hmed, hval]
  exact ⟨hth, by rw [hth]; decide⟩

/-- C7: a uniform single-valued image (any size, any shared pixel value)
yields `entropy = 0`, `color_variance = 0`, both normalized forms `0`, and
`edge_count = 0`. -/
theorem uniform_image_metrics (path : String) (p : Pixel) (h w : ℕ)
    (hh : 0 < h) (hw : 0 < w) :
    (computeMetrics path (List.replicate h (List.replicate w p))).entropy = 0 ∧
    (computeMetrics path (List.replicate h (List.replicate w p))).color_variance = 0 ∧
    (computeMetrics path (List.replicate h (List.replicate w p))).entropy_normalized = 0 ∧
    (computeMetrics path (List.replicate h (List.replicate w p))).color_variance_normalized
      = 0 ∧
    (computeMetrics path (List.replicate h (List.replicate w p))).edge_count = 0 := by
  have hn : 0 < h * w := Nat.mul_pos hh hw
  have hflat : grayFlat (List.replicate h (List.replicate w p))
      = List.replicate (h * w) (grayPix p) := grayFlat_replicate h w p
  have hent : entropyOf (List.replicate h (List.replicate w p)) = 0 := by
    unfold entropyOf
    rw [hflat, shannonEntropy_replicate hn, roundTo_zero]
  have hvar : varianceOf (List.replicate h (List.replicate w p)) = 0 := by
    unfold varianceOf
    rw [hflat, varQ_replicate hn, roundTo_zero]
  have hmed : medianQ (grayFlat (List.replicate h (List.replicate w p)))
      = (grayPix p : ℚ) := by
    rw [hflat]
    exact medianQ_replicate hn
  have hth := cannyThresholds_nonneg (m := (grayPix p : ℚ)) (by positivity)
  have hec : edgeCountOf (List.replicate h (List.replicate w p)) = 0 := by
    unfold edgeCountOf edgesOf
    have hthof : thresholdsOf (List.replicate h (List.replicate w p))
        = cannyThresholds ((grayPix p : ℚ)) := by
      unfold thresholdsOf
      rw [hmed]
    have hgray : grayImg (List.replicate h (List.replicate w p))
        = List.replicate h (List.replicate w (grayPix p)) := by
      unfold grayImg
      rw [List.map_replicate, List.map_replicate]
    rw [hthof, hgray]
    exact countTrue_cannyEdges_replicate hh hw hth.1 hth.2
  simp only [computeMetrics]
  refine ⟨hent, hvar, ?_, ?_, hec⟩
  · rw [hent, zero_div, min_eq_left zero_le_one, roundTo_zero]
  · rw [hvar, zero_div, min_eq_left zero_le_one, roundTo_zero]

/-- Witness for C7 at the pure white 10×10 image. -/
theorem uniform_image_metrics_witness :
    (0 < 10 ∧ 0 < 10) ∧
    ((computeMetrics "white.png"
        (List.replicate 10 (List.replicate 10 ((255, 255, 255) : Pixel)))).entropy = 0 ∧
    (computeMetrics "white.png"
        (List.replicate 10 (List.replicate 10 ((255, 255, 255) : Pixel)))).color_variance
      = 0 ∧
    (computeMetrics "white.png"
        (List.replicate 10 (List.replicate 10 ((255, 255, 255) : Pixel)))).entropy_normalized
      = 0 ∧
    (computeMetrics "white.png"
        (List.replicate 10
          (List.replicate 10 ((255, 255, 255) : Pixel)))).color_variance_normalized = 0 ∧
    (computeMetrics "white.png"
        (List.replicate 10 (List.replicate 10 ((255, 255, 255) : Pixel)))).edge_count = 0) :=
  ⟨⟨by decide, by decide⟩,
    uniform_image_metrics "white.png" (255, 255, 255) 10 10 (by decide) (by decide)⟩

/-- C8: extraction is deterministic — with the same filesystem state and the
same (functional) decoder, invocations on byte-identical files return
identical metric records; the embedding is a pure function of its inputs. -/
theorem analyze_deterministic (ex : Bool) (decodeBytes : List ℕ → DecodeResult)
    (p : String) (b₁ b₂ : List ℕ) (hb : b₁ = b₂) :
    analyze_visual_complexity ex (decodeBytes b₁) p
      = analyze_visual_complexity ex (decodeBytes b₂) p := by
  rw [hb]

/-- Witness for C8 on a concrete byte list. -/
theorem analyze_deterministic_witness :
    analyze_visual_complexity true DecodeResult.fail "img.png"
      = analyze_visual_complexity true DecodeResult.fail "img.png" :=
  analyze_deterministic true (fun _ => DecodeResult.fail) "img.png" [] [] rfl

/-- C9: the public interface is total — both `except` paths map a raised
library exception to `None`, and every invocation returns either `None` or
the complete metrics record (never a propagated exception, never a partial
record). -/
theorem analyze_total_no_exception (ex : Bool) (dec : DecodeResult) (p : String) :
    analyze_visual_complexity ex DecodeResult.raiseCv p = none ∧
    analyze_visual_complexity ex DecodeResult.raiseExc p = none ∧
    (analyze_visual_complexity ex dec p = none ∨
      ∃ img, dec = DecodeResult.ok img ∧
        analyze_visual_complexity ex dec p = some (computeMetrics p img)) := by
  refine ⟨?_, ?_, ?_⟩
  · cases ex <;> rfl
  · cases ex <;> rfl
  · cases ex with
    | false => exact Or.inl rfl
    | true =>
      cases dec with
      | ok img =>
        by_cases hpc : pixelCount img = 0
        · exact Or.inl (by simp [analyze_visual_complexity, analyzeBody, hpc])
        · exact Or.inr ⟨img, rfl, by simp [analyze_visual_complexity, analyzeBody, hpc]⟩
      | fail => exact Or.inl rfl
      | raiseCv => exact Or.inl rfl
      | raiseExc => exact Or.inl rfl

/-- C5: `analyze_visual_complexity` returns `None` exactly when the path is
missing, `imread` returns `None` or raises (`cv2.error` or any other
exception), or the decoded pixel count is zero; and every `some` result is
the complete record of an image with positive pixel count — a record for a
zero-pixel image is never returned. -/
theorem analyze_failure_iff (ex : Bool) (dec : DecodeResult) (p : String) :
    (analyze_visual_complexity ex dec p = none ↔
      ex = false ∨ dec = DecodeResult.fail ∨ dec = DecodeResult.raiseCv ∨
        dec = DecodeResult.raiseExc ∨
        ∃ img, dec = DecodeResult.ok img ∧ pixelCount img = 0) ∧
    ∀ m, analyze_visual_complexity ex dec p = some m →
      ∃ img, dec = DecodeResult.ok img ∧ 0 < pixelCount img ∧
        m = computeMetrics p img := by
  cases ex with
  | false =>
    refine ⟨⟨fun _ => Or.inl rfl, fun _ => rfl⟩, fun m hm => ?_⟩
    exact absurd hm (by simp [analyze_visual_complexity, analyzeBody])
  | true =>
    cases dec with
    | ok img =>
      have hred : analyze_visual_complexity true (DecodeResult.ok img) p
          = if pixelCount img = 0 then none else some (computeMetrics p img) := by
        by_cases hpc : pixelCount img = 0 <;>
          simp [analyze_visual_complexity, analyzeBody, hpc]
      by_cases hpc : pixelCount img = 0
      · rw [hred, if_pos hpc]
        refine ⟨⟨fun _ => Or.inr (Or.inr (Or.inr (Or.inr ⟨img, rfl, hpc⟩))),
          fun _ => rfl⟩, fun m hm => absurd hm (by simp)⟩
      · rw [hred, if_neg hpc]
        refine ⟨⟨fun hcontr => absurd hcontr (by simp), fun hcases => ?_⟩,
          fun m hm => ?_⟩
        · rcases hcases with hc | hc | hc | hc | ⟨img2, heq, hz⟩
          · exact absurd hc (by simp)
          · exact absurd hc (by simp)
          · exact absurd hc (by simp)
          · exact absurd hc (by simp)
          · cases heq
            exact absurd hz hpc
        · exact ⟨img, rfl, Nat.pos_of_ne_zero hpc, (Option.some.inj hm).symm⟩
    | fail =>
      refine ⟨⟨fun _ => Or.inr (Or.inl rfl), fun _ => rfl⟩, fun m hm =>
        absurd hm (by simp [analyze_visual_complexity, analyzeBody])⟩
    | raiseCv =>
      refine ⟨⟨fun _ => Or.inr (Or.inr (Or.inl rfl)), fun _ => rfl⟩, fun m hm =>
        absurd hm (by simp [analyze_visual_complexity, analyzeBody])⟩
    | raiseExc =>
      refine ⟨⟨fun _ => Or.inr (Or.inr (Or.inr (Or.inl rfl))), fun _ => rfl⟩, fun m hm =>
        absurd hm (by simp [analyze_visual_complexity, analyzeBody])⟩

/-- Witness for C5: the missing-path case returns `None`. -/
theorem analyze_failure_iff_witness :
    analyze_visual_complexity false DecodeResult.fail "img.png" = none :=
  (analyze_failure_iff false DecodeResult.fail "img.png").1.mpr (Or.inl rfl)

end ImageAnalyzer
